import Mathlib

/-!
Verification of the region-aware captioning core (`im2txt/show_and_tell_model.py`,
`ricga/run_inference.py`, `ricga/create_results.py`).

The tensor computations are embedded shallowly over exact rationals: element-wise
tensor operations become scalar functions on `ℚ`, rows of a tensor become
`List ℚ`, and a batch becomes a list of rows.  Transcendental primitives that the
code takes from the numerics library (`exp`, `sigmoid`/`tanh` inside the LSTM
cell, the per-token cross-entropy, softmax) are abstracted as function
parameters, since the repository treats those as opaque library calls; every
structural computation of the repository itself (the box-decode formulas, the
clipping, the non-max-suppression driver loop, the state split/concat protocol,
the dynamic-rnn masking, the masked loss, the caption trimming) is translated
directly from the source.
-/

namespace RicgaSpec

/-- Row vector of rationals: one row of a float tensor. -/
abbrev Vec := List ℚ

/-- Decoded or prior bounding box, coordinate layout `(xmin, ymin, xmax, ymax)`
exactly as concatenated in `build_image_ssd_embeddings` (lines 261-268). -/
structure BBox where
  xmin : ℚ
  ymin : ℚ
  xmax : ℚ
  ymax : ℚ
deriving DecidableEq, Repr

/-- Per-prior localization offsets `mbox_loc[:, :, 0..3] = (dx, dy, dw, dh)`. -/
structure Loc where
  dx : ℚ
  dy : ℚ
  dw : ℚ
  dh : ℚ
deriving DecidableEq, Repr

/-- Per-prior variances `variances[:, :, 0..3] = (vx, vy, vw, vh)`. -/
structure Variance where
  vx : ℚ
  vy : ℚ
  vw : ℚ
  vh : ℚ
deriving DecidableEq, Repr

/-- Clip a scalar to `[0, 1]`: `tf.minimum(tf.maximum(x, 0.0), 1.0)` (line 269). -/
def clip01 (x : ℚ) : ℚ := min (max x 0) 1

/-- Box decoder, translated statement-by-statement from
`build_image_ssd_embeddings` lines 249-269, for one prior of one image.
`e` stands for the library exponential `tf.exp`.  Note line 255 multiplies the
y-offset by `prior_width`, not `prior_height`; this is kept verbatim. -/
def decodeBox (e : ℚ → ℚ) (prior : BBox) (loc : Loc) (var : Variance) : BBox :=
  let prior_width := prior.xmax - prior.xmin
  let prior_height := prior.ymax - prior.ymin
  let prior_center_x := (1/2 : ℚ) * (prior.xmax + prior.xmin)
  let prior_center_y := (1/2 : ℚ) * (prior.ymax + prior.ymin)
  let decode_bbox_center_x := loc.dx * prior_width * var.vx + prior_center_x
  let decode_bbox_center_y := loc.dy * prior_width * var.vy + prior_center_y
  let decode_bbox_width := e (loc.dw * var.vw) * prior_width
  let decode_bbox_height := e (loc.dh * var.vh) * prior_height
  { xmin := clip01 (decode_bbox_center_x - (1/2 : ℚ) * decode_bbox_width)
    ymin := clip01 (decode_bbox_center_y - (1/2 : ℚ) * decode_bbox_height)
    xmax := clip01 (decode_bbox_center_x + (1/2 : ℚ) * decode_bbox_width)
    ymax := clip01 (decode_bbox_center_y + (1/2 : ℚ) * decode_bbox_height) }

/-- Modelled from the spec: the box formula exactly as §4.1 of the spec states
it — `cx = dx*prior_w*vx + 0.5*(px1+px0)`, `cy = dy*prior_w*vy + 0.5*(py1+py0)`,
`w = exp(dw*vw)*prior_w`, `h = exp(dh*vh)*prior_h`, box
`(cx-w/2, cy-h/2, cx+w/2, cy+h/2)` clipped elementwise to `[0,1]`. -/
def decodeBoxSpec (e : ℚ → ℚ) (prior : BBox) (loc : Loc) (var : Variance) : BBox :=
  let prior_w := prior.xmax - prior.xmin
  let prior_h := prior.ymax - prior.ymin
  let cx := loc.dx * prior_w * var.vx + (1/2 : ℚ) * (prior.xmax + prior.xmin)
  let cy := loc.dy * prior_w * var.vy + (1/2 : ℚ) * (prior.ymax + prior.ymin)
  let w := e (loc.dw * var.vw) * prior_w
  let h := e (loc.dh * var.vh) * prior_h
  { xmin := clip01 (cx - w / 2)
    ymin := clip01 (cy - h / 2)
    xmax := clip01 (cx + w / 2)
    ymax := clip01 (cy + h / 2) }

theorem clip01_nonneg (x : ℚ) : 0 ≤ clip01 x := by
  unfold clip01
  exact le_min (le_max_right x 0) (by norm_num)

theorem clip01_le_one (x : ℚ) : clip01 x ≤ 1 := min_le_right _ _

theorem clip01_mono {a b : ℚ} (h : a ≤ b) : clip01 a ≤ clip01 b :=
  min_le_min (max_le_max h le_rfl) le_rfl

/-- C1: the box decoder computes exactly the formula of §4.1 of the spec
(center offsets scaled by the prior width — including the y-center, which uses
`prior_w`, not `prior_h` — exponential width/height, corners at `c ∓ w/2`,
elementwise clip to `[0,1]`), and it is a pure function of the prior, the
offsets and the variances. -/
theorem decodeBox_eq_spec (e : ℚ → ℚ) (prior : BBox) (loc : Loc) (var : Variance) :
    decodeBox e prior loc var = decodeBoxSpec e prior loc var ∧
      (∀ p2 l2 v2, prior = p2 → loc = l2 → var = v2 →
        decodeBox e prior loc var = decodeBox e p2 l2 v2) := by
  constructor
  · unfold decodeBox decodeBoxSpec
    simp only [BBox.mk.injEq]
    refine ⟨?_, ?_, ?_, ?_⟩ <;> ring_nf
  · intro p2 l2 v2 hp hl hv
    rw [hp, hl, hv]

/-- Witness for `decodeBox_eq_spec` at the spec §8 scenario: prior `(0,0,1,1)`,
variance `(1,1,1,1)`, offset `(0,0,0,0)` and an exponential with `e 0 = 1`
decode to exactly `(0,0,1,1)`. -/
theorem decodeBox_eq_spec_witness :
    (decodeBox (fun _ => 1) ⟨0, 0, 1, 1⟩ ⟨0, 0, 0, 0⟩ ⟨1, 1, 1, 1⟩ = ⟨0, 0, 1, 1⟩) ∧
      (decodeBox (fun _ => 1) ⟨0, 0, 1, 1⟩ ⟨0, 0, 0, 0⟩ ⟨1, 1, 1, 1⟩ =
          decodeBoxSpec (fun _ => 1) ⟨0, 0, 1, 1⟩ ⟨0, 0, 0, 0⟩ ⟨1, 1, 1, 1⟩ ∧
        (∀ p2 l2 v2, (⟨0, 0, 1, 1⟩ : BBox) = p2 → (⟨0, 0, 0, 0⟩ : Loc) = l2 →
          (⟨1, 1, 1, 1⟩ : Variance) = v2 →
          decodeBox (fun _ => 1) ⟨0, 0, 1, 1⟩ ⟨0, 0, 0, 0⟩ ⟨1, 1, 1, 1⟩ =
            decodeBox (fun _ => 1) p2 l2 v2)) :=
  ⟨by norm_num [decodeBox, clip01, BBox.mk.injEq],
    decodeBox_eq_spec (fun _ => 1) ⟨0, 0, 1, 1⟩ ⟨0, 0, 0, 0⟩ ⟨1, 1, 1, 1⟩⟩

/-- C5: for priors with `px0 ≤ px1` and `py0 ≤ py1` and a positive exponential,
every decoded box lies in `[0,1]^4` with `xmin ≤ xmax` and `ymin ≤ ymax`, and
decoding is deterministic. -/
theorem decodeBox_in_unit_square (e : ℚ → ℚ) (prior : BBox) (loc : Loc) (var : Variance)
    (hpos : ∀ x, 0 < e x) (hx : prior.xmin ≤ prior.xmax) (hy : prior.ymin ≤ prior.ymax) :
    (0 ≤ (decodeBox e prior loc var).xmin ∧ (decodeBox e prior loc var).xmin ≤ 1) ∧
      (0 ≤ (decodeBox e prior loc var).ymin ∧ (decodeBox e prior loc var).ymin ≤ 1) ∧
      (0 ≤ (decodeBox e prior loc var).xmax ∧ (decodeBox e prior loc var).xmax ≤ 1) ∧
      (0 ≤ (decodeBox e prior loc var).ymax ∧ (decodeBox e prior loc var).ymax ≤ 1) ∧
      (decodeBox e prior loc var).xmin ≤ (decodeBox e prior loc var).xmax ∧
      (decodeBox e prior loc var).ymin ≤ (decodeBox e prior loc var).ymax ∧
      (∀ p2 l2 v2, prior = p2 → loc = l2 → var = v2 →
        decodeBox e prior loc var = decodeBox e p2 l2 v2) := by
  have hw : 0 ≤ e (loc.dw * var.vw) * (prior.xmax - prior.xmin) :=
    mul_nonneg (le_of_lt (hpos _)) (by linarith)
  have hh : 0 ≤ e (loc.dh * var.vh) * (prior.ymax - prior.ymin) :=
    mul_nonneg (le_of_lt (hpos _)) (by linarith)
  unfold decodeBox
  refine ⟨⟨clip01_nonneg _, clip01_le_one _⟩, ⟨clip01_nonneg _, clip01_le_one _⟩,
    ⟨clip01_nonneg _, clip01_le_one _⟩, ⟨clip01_nonneg _, clip01_le_one _⟩,
    clip01_mono (by nlinarith), clip01_mono (by nlinarith), ?_⟩
  intro p2 l2 v2 hp hl hv
  rw [hp, hl, hv]

/-- Witness for `decodeBox_in_unit_square` with the constant exponential `1`,
the unit prior and zero offsets. -/
theorem decodeBox_in_unit_square_witness :
    ((∀ x : ℚ, (0 : ℚ) < (fun _ : ℚ => (1 : ℚ)) x) ∧
        (⟨0, 0, 1, 1⟩ : BBox).xmin ≤ (⟨0, 0, 1, 1⟩ : BBox).xmax ∧
        (⟨0, 0, 1, 1⟩ : BBox).ymin ≤ (⟨0, 0, 1, 1⟩ : BBox).ymax) ∧
      (0 ≤ (decodeBox (fun _ => 1) ⟨0, 0, 1, 1⟩ ⟨0, 0, 0, 0⟩ ⟨1, 1, 1, 1⟩).xmin ∧
        (decodeBox (fun _ => 1) ⟨0, 0, 1, 1⟩ ⟨0, 0, 0, 0⟩ ⟨1, 1, 1, 1⟩).xmin ≤ 1) :=
  ⟨⟨fun _ => by norm_num, by decide, by decide⟩,
    (decodeBox_in_unit_square (fun _ => 1) ⟨0, 0, 1, 1⟩ ⟨0, 0, 0, 0⟩ ⟨1, 1, 1, 1⟩
      (fun _ => by norm_num) (by decide) (by decide)).1⟩

/-! Region selector: `build_image_ssd_embeddings` lines 271-303.  Per image the
code runs `tf.image.non_max_suppression(bboxes, conf, 1)` and keeps the box at
the first returned index.  Non-max suppression is the greedy algorithm of the
numerics library: repeatedly take the highest-scoring remaining candidate
(lowest index first on ties) and discard every remaining candidate whose
overlap with it exceeds the default threshold `0.5`, until the retention limit
is reached. -/

/-- Area of a box. -/
def boxArea (a : BBox) : ℚ := (a.xmax - a.xmin) * (a.ymax - a.ymin)

/-- Area of the intersection of two boxes. -/
def interArea (a b : BBox) : ℚ :=
  max 0 (min a.xmax b.xmax - max a.xmin b.xmin) *
    max 0 (min a.ymax b.ymax - max a.ymin b.ymin)

/-- Intersection-over-union overlap measure used by the suppression step. -/
def iou (a b : BBox) : ℚ := interArea a b / (boxArea a + boxArea b - interArea a b)

/-- Default overlap threshold of `tf.image.non_max_suppression`. -/
def nmsIouThreshold : ℚ := 1 / 2

/-- Highest-scoring candidate index, earliest index first on ties (the
tie-breaking order of the library's score-ranked selection). -/
def bestIdx (scores : List ℚ) (cand : List Nat) : Option Nat :=
  cand.argmax fun j => scores.getD j 0

/-- Greedy score-ranked suppression: the first argument is the remaining
retention budget (`max_output_size`), the last the remaining candidate
indices. -/
def nmsGreedy (boxes : List BBox) (scores : List ℚ) : Nat → List Nat → List Nat
  | 0, _ => []
  | Nat.succ m, cand =>
    match bestIdx scores cand with
    | none => []
    | some i =>
      i :: nmsGreedy boxes scores m
        ((cand.erase i).filter fun j =>
          decide (iou (boxes.getD i ⟨0, 0, 0, 0⟩) (boxes.getD j ⟨0, 0, 0, 0⟩) ≤ nmsIouThreshold))

/-- Semantics of `tf.image.non_max_suppression boxes scores maxOut` (line 275):
selected indices among all prior indices. -/
def nonMaxSuppression (boxes : List BBox) (scores : List ℚ) (maxOut : Nat) : List Nat :=
  nmsGreedy boxes scores maxOut (List.range boxes.length)

/-- Per-image selected box: `good_box_item = decode_bbox[i, idx_item[0], :]`
(line 281), with `idx_item = non_max_suppression(bboxes, conf, 1)`. -/
def goodBox (boxes : List BBox) (scores : List ℚ) : BBox :=
  boxes.getD ((nonMaxSuppression boxes scores 1).getD 0 0) ⟨0, 0, 0, 0⟩

/-- Batched selection (the `good_box_list` loop, lines 279-283): one box per
batch element, each element carrying its image, decoded boxes and per-prior
max-class confidences. -/
def regionSelectorBoxes {Img : Type} (batch : List (Img × List BBox × List ℚ)) : List BBox :=
  batch.map fun b => goodBox b.2.1 b.2.2

/-- Batched cropping (`tf.image.crop_and_resize` over `good_box` with
`box_ind = range(batch)`, lines 300-303): one cropped region per batch
element, produced by the opaque crop-and-resize primitive `crop`. -/
def regionImages {Img Reg : Type} (crop : Img → BBox → Reg)
    (batch : List (Img × List BBox × List ℚ)) : List Reg :=
  batch.map fun b => crop b.1 (goodBox b.2.1 b.2.2)

/-- Suppression with retention limit 1 over a nonempty prior set returns
exactly one index: the earliest index of maximal score. -/
theorem nms_top1 (boxes : List BBox) (scores : List ℚ) (hne : boxes ≠ []) :
    ∃ i, nonMaxSuppression boxes scores 1 = [i] ∧ i < boxes.length ∧
      ∀ j < boxes.length, scores.getD j 0 ≤ scores.getD i 0 := by
  have hrange : List.range boxes.length ≠ [] := by
    simpa [List.range_eq_nil] using fun h => hne (List.length_eq_zero.mp h)
  rcases hbest : bestIdx scores (List.range boxes.length) with _ | i
  · exact absurd (List.argmax_eq_none.mp hbest) hrange
  · refine ⟨i, ?_, ?_, ?_⟩
    · simp [nonMaxSuppression, nmsGreedy, hbest]
    · exact List.mem_range.mp (List.argmax_mem hbest)
    · intro j hj
      exact List.le_of_mem_argmax (List.mem_range.mpr hj) hbest

/-- C3: for every batch of images and every detector output (all-zero
confidences included), the region selector yields exactly one suppression
survivor per image, one selected box per image and one cropped region per
image, provided each image has a nonempty prior set (an empty prior set is a
construction-time failure, §4.2 of the spec). -/
theorem region_selector_exactly_one {Img Reg : Type} (crop : Img → BBox → Reg)
    (batch : List (Img × List BBox × List ℚ))
    (hne : ∀ b ∈ batch, b.2.1 ≠ ([] : List BBox)) :
    (∀ b ∈ batch, (nonMaxSuppression b.2.1 b.2.2 1).length = 1) ∧
      (regionSelectorBoxes batch).length = batch.length ∧
      (regionImages crop batch).length = batch.length := by
  refine ⟨?_, by simp [regionSelectorBoxes], by simp [regionImages]⟩
  intro b hb
  obtain ⟨i, hi, -, -⟩ := nms_top1 b.2.1 b.2.2 (hne b hb)
  simp [hi]

/-- Witness for `region_selector_exactly_one`: a one-image batch with a single
prior and an all-zero confidence vector. -/
theorem region_selector_exactly_one_witness :
    (∀ b ∈ [((), [(⟨0, 0, 1, 1⟩ : BBox)], [(0 : ℚ)])], b.2.1 ≠ ([] : List BBox)) ∧
      ((∀ b ∈ [((), [(⟨0, 0, 1, 1⟩ : BBox)], [(0 : ℚ)])],
          (nonMaxSuppression b.2.1 b.2.2 1).length = 1) ∧
        (regionSelectorBoxes [((), [(⟨0, 0, 1, 1⟩ : BBox)], [(0 : ℚ)])]).length = 1 ∧
        (regionImages (fun _ _ => ()) [((), [(⟨0, 0, 1, 1⟩ : BBox)], [(0 : ℚ)])]).length = 1) :=
  ⟨by simp, region_selector_exactly_one (fun _ _ => ())
      [((), [(⟨0, 0, 1, 1⟩ : BBox)], [(0 : ℚ)])] (by simp)⟩

/-- C9: the single survivor of confidence-ranked suppression with retention
limit 1 is the candidate of highest confidence, and the selected box is that
candidate's box; a witness instantiates this at two overlapping priors with
confidences 0.9 and 0.1, where the 0.9 box is selected. -/
theorem nms_selects_highest_confidence (boxes : List BBox) (scores : List ℚ)
    (hne : boxes ≠ []) :
    ∃ i, nonMaxSuppression boxes scores 1 = [i] ∧ i < boxes.length ∧
      (∀ j < boxes.length, scores.getD j 0 ≤ scores.getD i 0) ∧
      goodBox boxes scores = boxes.getD i ⟨0, 0, 0, 0⟩ := by
  obtain ⟨i, hi, hlt, hmax⟩ := nms_top1 boxes scores hne
  exact ⟨i, hi, hlt, hmax, by simp [goodBox, hi]⟩

/-- Witness for `nms_selects_highest_confidence`: two overlapping priors with
max-class confidences `0.9` and `0.1`. -/
theorem nms_selects_highest_confidence_witness :
    ([(⟨0, 0, 1, 1⟩ : BBox), ⟨0, 0, 1, 9/10⟩] ≠ ([] : List BBox)) ∧
      ∃ i, nonMaxSuppression [(⟨0, 0, 1, 1⟩ : BBox), ⟨0, 0, 1, 9/10⟩] [9/10, 1/10] 1 = [i] ∧
        i < ([(⟨0, 0, 1, 1⟩ : BBox), ⟨0, 0, 1, 9/10⟩] : List BBox).length ∧
        (∀ j < ([(⟨0, 0, 1, 1⟩ : BBox), ⟨0, 0, 1, 9/10⟩] : List BBox).length,
          ([(9 : ℚ)/10, 1/10] : List ℚ).getD j 0 ≤ ([(9 : ℚ)/10, 1/10] : List ℚ).getD i 0) ∧
        goodBox [(⟨0, 0, 1, 1⟩ : BBox), ⟨0, 0, 1, 9/10⟩] [9/10, 1/10] =
          ([(⟨0, 0, 1, 1⟩ : BBox), ⟨0, 0, 1, 9/10⟩] : List BBox).getD i ⟨0, 0, 0, 0⟩ :=
  ⟨by simp, nms_selects_highest_confidence [⟨0, 0, 1, 1⟩, ⟨0, 0, 1, 9/10⟩] [9/10, 1/10] (by simp)⟩

/-! Recurrent decoder: `build_model` lines 326-417.  The LSTM cell is library
code (`tf.contrib.rnn.BasicLSTMCell`), so it is abstracted as an opaque cell
function from an input row and a state pair to an output row and a new state
pair; everything the repository wires around it — the train-only dropout
wrapper, the seeding step, the stepwise split/step/concat state protocol and
the length-limited unrolled run — is translated from the source. -/

/-- Opaque recurrent cell: input row and state pair to output row and new
state pair. -/
abbrev CellFn := Vec → Vec × Vec → Vec × (Vec × Vec)

/-- Concatenated state, `tf.concat(axis=1, values=state_tuple)` (lines 380,
394), restricted to one batch row. -/
def concatState (st : Vec × Vec) : Vec := st.1 ++ st.2

/-- State reconstruction, `tf.split(value=state_feed, num_or_size_splits=2,
axis=1)` (line 386): an even split of the flat row at its midpoint. -/
def splitState (v : Vec) : Vec × Vec := (v.take (v.length / 2), v.drop (v.length / 2))

/-- Splitting the concatenation of two equal-length halves recovers them. -/
theorem splitState_concatState (c h : Vec) (hl : c.length = h.length) :
    splitState (concatState (c, h)) = (c, h) := by
  have h2 : (c ++ h).length / 2 = c.length := by
    simp [List.length_append, ← hl, ← two_mul]
  simp only [splitState, concatState, h2, List.take_left, List.drop_left]

/-- C7: splitting a flattened length-`2H` state vector at its midpoint into
hidden and cell halves and re-concatenating them is the identity. -/
theorem state_roundtrip (H : Nat) (v : Vec) (_hv : v.length = 2 * H) :
    concatState (splitState v) = v := by
  simp [concatState, splitState]

/-- Witness for `state_roundtrip` at `H = 1`, `v = [3, 7]`. -/
theorem state_roundtrip_witness :
    ([(3 : ℚ), 7] : Vec).length = 2 * 1 ∧
      concatState (splitState [(3 : ℚ), 7]) = [(3 : ℚ), 7] :=
  ⟨rfl, state_roundtrip 1 [(3 : ℚ), 7] rfl⟩

/-- One stepwise call (lines 386-394): split the fed flat state, run the cell
once, return the output row and the re-concatenated new state. -/
def stepwiseCall (cell : CellFn) (x : Vec) (stateFeed : Vec) : Vec × Vec :=
  ((cell x (splitState stateFeed)).1, concatState (cell x (splitState stateFeed)).2)

/-- Driver loop of stepwise mode: thread the flat state vector through
successive single-token calls, collecting one output row per token. -/
def stepwiseRun (cell : CellFn) : List Vec → Vec → List Vec
  | [], _ => []
  | x :: xs, s =>
    (stepwiseCall cell x s).1 :: stepwiseRun cell xs (stepwiseCall cell x s).2

/-- Semantics of `tf.nn.dynamic_rnn` with `sequence_length` (lines 397-403)
for one batch row: while the remaining valid length is positive the cell is
applied and the state advances; past the valid length the output row is zero
(width `H`) and the state is carried unchanged. -/
def dynamicRnn (cell : CellFn) (H : Nat) : List Vec → Nat → (Vec × Vec) → List Vec
  | [], _, _ => []
  | _ :: xs, 0, st => List.replicate H 0 :: dynamicRnn cell H xs 0 st
  | x :: xs, Nat.succ n, st => (cell x st).1 :: dynamicRnn cell H xs n (cell x st).2

/-- Zero state `lstm_cell.zero_state` (line 370) for one batch row. -/
def zeroState (H : Nat) : Vec × Vec := (List.replicate H 0, List.replicate H 0)

/-- Seeded initial state (line 372): the state after feeding the fused image
context to the cell started from the zero state. -/
def seededState (cell : CellFn) (H : Nat) (imageCtx : Vec) : Vec × Vec :=
  (cell imageCtx (zeroState H)).2

/-- Stepwise threading through the flat-state protocol agrees with the
fuel-limited unrolled run on the first `n` outputs, from any state whose
halves have the cell's width. -/
theorem stepwise_matches_dynamic (cell : CellFn) (H : Nat)
    (hcell : ∀ x s, (cell x s).2.1.length = H ∧ (cell x s).2.2.length = H) :
    ∀ (xs : List Vec) (n : Nat) (st : Vec × Vec), st.1.length = H → st.2.length = H →
      (stepwiseRun cell xs (concatState st)).take n = (dynamicRnn cell H xs n st).take n := by
  intro xs
  induction xs with
  | nil => intro n st h1 h2; simp [stepwiseRun, dynamicRnn]
  | cons x xs ih =>
    intro n st h1 h2
    have hsplit : splitState (concatState st) = st := by
      rcases st with ⟨c, h⟩
      exact splitState_concatState c h (h1.trans h2.symm)
    cases n with
    | zero => simp
    | succ n =>
      have hcall : stepwiseCall cell x (concatState st) =
          ((cell x st).1, concatState (cell x st).2) := by
        simp [stepwiseCall, hsplit]
      simp only [stepwiseRun, dynamicRnn, hcall, List.take_succ_cons]
      exact congrArg _ (ih n (cell x st).2 (hcell x st).1 (hcell x st).2)

/-- C2: running stepwise mode one token at a time over a full sequence,
starting from the seeded initial state and threading the flattened state
through successive calls, produces the same logits at each valid position
(positions below the masked sequence length) as the unrolled run with
matching mask, given identical weights — exactly, over this exact-arithmetic
embedding. -/
theorem stepwise_unrolled_logits_equiv (cell : CellFn) (H : Nat) (logitsOf : Vec → Vec)
    (imageCtx : Vec) (inputs : List Vec) (seqLen : Nat)
    (hcell : ∀ x s, (cell x s).2.1.length = H ∧ (cell x s).2.2.length = H) :
    ((stepwiseRun cell inputs (concatState (seededState cell H imageCtx))).map logitsOf).take
        seqLen =
      ((dynamicRnn cell H inputs seqLen (seededState cell H imageCtx)).map logitsOf).take
        seqLen := by
  rw [← List.map_take, ← List.map_take]
  exact congrArg _ (stepwise_matches_dynamic cell H hcell inputs seqLen
    (seededState cell H imageCtx) (hcell _ _).1 (hcell _ _).2)

/-- Constant width-1 cell used to instantiate the stepwise/unrolled
equivalence and the purity statement on concrete inputs. -/
def unitCell : CellFn := fun _ _ => ([0], ([0], [0]))

/-- Witness for `stepwise_unrolled_logits_equiv`: width-1 constant cell, a
one-token sequence, sequence length 1. -/
theorem stepwise_unrolled_logits_equiv_witness :
    (∀ (x : Vec) (s : Vec × Vec),
        (unitCell x s).2.1.length = 1 ∧ (unitCell x s).2.2.length = 1) ∧
      ((stepwiseRun unitCell [[(5 : ℚ)]]
            (concatState (seededState unitCell 1 [(2 : ℚ)]))).map id).take 1 =
        ((dynamicRnn unitCell 1 [[(5 : ℚ)]] 1 (seededState unitCell 1 [(2 : ℚ)])).map id).take
          1 :=
  ⟨fun _ _ => ⟨rfl, rfl⟩,
    stepwise_unrolled_logits_equiv unitCell 1 id [(2 : ℚ)] [[(5 : ℚ)]] 1
      (fun _ _ => ⟨rfl, rfl⟩)⟩

/-- Mode flag fixed at construction (`__init__` line 50: one of "train",
"eval", "inference"; `evaluate` stands for the eval mode string). -/
inductive Mode
  | train
  | evaluate
  | inference
deriving DecidableEq

/-- Dropout wrapper (`tf.contrib.rnn.DropoutWrapper`, lines 346-349): opaque
random keep-masks applied to the cell's input and output paths. -/
def dropoutWrapper (cell : CellFn) (dropIn dropOut : Vec → Vec) : CellFn :=
  fun x st => (dropOut (cell (dropIn x) st).1, (cell (dropIn x) st).2)

/-- Cell construction (lines 343-349): the dropout wrapper is installed only
when the mode is train. -/
def buildLstmCell (mode : Mode) (cell : CellFn) (dropIn dropOut : Vec → Vec) : CellFn :=
  if mode = Mode.train then dropoutWrapper cell dropIn dropOut else cell

/-- Full stepwise output of inference mode (lines 386-394 and 408-417): the
softmax of the logits of the single output row, and the new flat state. -/
def stepwiseSoftmaxStep (softmax logitsOf : Vec → Vec) (cell : CellFn) (x stateFeed : Vec) :
    Vec × Vec :=
  (softmax (logitsOf (stepwiseCall cell x stateFeed).1), (stepwiseCall cell x stateFeed).2)

/-- C8: in stepwise (inference) mode each call is a pure function of its
explicit arguments — two calls given the same flattened state vector, the same
sequence-context row and the same weights return identical softmax outputs
and identical new state vectors, regardless of the dropout random masks,
because the dropout wrapper is installed only when the mode is train. -/
theorem stepwise_call_pure (cell : CellFn) (softmax logitsOf : Vec → Vec)
    (dIn1 dOut1 dIn2 dOut2 : Vec → Vec) (x1 x2 s1 s2 : Vec)
    (hx : x1 = x2) (hs : s1 = s2) :
    stepwiseSoftmaxStep softmax logitsOf (buildLstmCell Mode.inference cell dIn1 dOut1) x1 s1 =
      stepwiseSoftmaxStep softmax logitsOf (buildLstmCell Mode.inference cell dIn2 dOut2) x2
        s2 := by
  subst hx hs
  simp [buildLstmCell]

/-- Witness for `stepwise_call_pure`: the width-1 constant cell, two distinct
dropout masks, equal fed inputs and states. -/
theorem stepwise_call_pure_witness :
    (([(4 : ℚ)] : Vec) = [(4 : ℚ)] ∧ ([(0 : ℚ), 0] : Vec) = [(0 : ℚ), 0]) ∧
      stepwiseSoftmaxStep id id (buildLstmCell Mode.inference unitCell id id) [(4 : ℚ)]
          [(0 : ℚ), 0] =
        stepwiseSoftmaxStep id id
          (buildLstmCell Mode.inference unitCell (fun _ => []) (fun _ => [])) [(4 : ℚ)]
          [(0 : ℚ), 0] :=
  ⟨⟨rfl, rfl⟩,
    stepwise_call_pure unitCell id id id id (fun _ => []) (fun _ => []) [(4 : ℚ)] [(4 : ℚ)]
      [(0 : ℚ), 0] [(0 : ℚ), 0] rfl rfl⟩

/-! Masked loss: `build_model` lines 419-439.  The logits are flattened to one
row per (example, timestep); the per-token cross-entropy
`tf.nn.sparse_softmax_cross_entropy_with_logits` is the opaque library
primitive `ce`; the loss divides the weighted sum of per-token losses by the
sum of the flattened 0/1 mask weights. -/

/-- Per-token cross-entropy losses (lines 423-424): the opaque library
cross-entropy applied position-wise to the flattened logit rows and the
flattened targets. -/
def tokenLosses (ce : Vec → Nat → ℚ) (logitRows : List Vec) (targets : List Nat) : List ℚ :=
  List.zipWith ce logitRows targets

/-- Flattened mask weights `tf.to_float(tf.reshape(self.input_mask, [-1]))`
(line 420). -/
def lossWeights (mask : List Nat) : List ℚ := mask.map fun (m : Nat) => (m : ℚ)

/-- Batch loss (lines 425-427): `reduce_sum(losses * weights) /
reduce_sum(weights)`. -/
def batchLoss (ce : Vec → Nat → ℚ) (logitRows : List Vec) (targets mask : List Nat) : ℚ :=
  (List.zipWith (· * ·) (tokenLosses ce logitRows targets) (lossWeights mask)).sum /
    (lossWeights mask).sum

/-- Modelled from the spec: "loss = (Σ per-token-loss × mask) / (Σ mask)",
written as an explicit sum over token positions. -/
def specMaskedLoss (ce : Vec → Nat → ℚ) (logitRows : List Vec) (targets mask : List Nat) : ℚ :=
  ((List.range mask.length).map fun i =>
      ce (logitRows.getD i []) (targets.getD i 0) * ((mask.getD i 0 : Nat) : ℚ)).sum /
    ((List.range mask.length).map fun i => ((mask.getD i 0 : Nat) : ℚ)).sum

/-- The zipped loss numerator equals the position-indexed sum. -/
theorem loss_num_eq_range (ce : Vec → Nat → ℚ) :
    ∀ (mask targets : List Nat) (rows : List Vec),
      rows.length = mask.length → targets.length = mask.length →
      (List.zipWith (· * ·) (List.zipWith ce rows targets) (mask.map fun (m : Nat) => (m : ℚ))).sum =
        ((List.range mask.length).map fun i =>
          ce (rows.getD i []) (targets.getD i 0) * ((mask.getD i 0 : Nat) : ℚ)).sum := by
  intro mask
  induction mask with
  | nil => intro targets rows h1 h2; simp
  | cons m ms ih =>
    intro targets rows h1 h2
    match rows, targets with
    | [], _ => simp at h1
    | _ :: _, [] => simp at h2
    | r :: rs, t :: ts =>
      have h1 : rs.length = ms.length := by simpa using h1
      have h2 : ts.length = ms.length := by simpa using h2
      simp only [List.length_cons, List.range_succ_eq_map, List.map_cons, List.map_map,
        List.map_cons, List.zipWith_cons_cons, List.sum_cons, List.getD_cons_zero,
        Function.comp_def, List.getD_cons_succ]
      rw [ih ts rs h1 h2]

/-- The mask-weight denominator equals the position-indexed sum. -/
theorem loss_den_eq_range :
    ∀ mask : List Nat,
      (mask.map fun (m : Nat) => (m : ℚ)).sum =
        ((List.range mask.length).map fun i => ((mask.getD i 0 : Nat) : ℚ)).sum := by
  intro mask
  induction mask with
  | nil => simp
  | cons m ms ih =>
    simp only [List.length_cons, List.range_succ_eq_map, List.map_cons, List.map_map,
      List.sum_cons, List.getD_cons_zero, Function.comp_def, List.getD_cons_succ]
    rw [ih]

/-- Multiplying position-wise by an all-ones mask is the identity. -/
theorem zipWith_mul_ones :
    ∀ (l : List ℚ) (mask : List Nat), (∀ m ∈ mask, m = 1) → l.length = mask.length →
      List.zipWith (· * ·) l (mask.map fun (m : Nat) => (m : ℚ)) = l := by
  intro l
  induction l with
  | nil => intro mask _ _; simp
  | cons a l ih =>
    intro mask hm hl
    match mask with
    | [] => simp at hl
    | m :: ms =>
      have hm1 : m = 1 := hm m (by simp)
      have hms : ∀ x ∈ ms, x = 1 := fun x hx => hm x (by simp [hx])
      have hl : l.length = ms.length := by simpa using hl
      simp [hm1, ih ms hms hl]

/-- An all-ones mask sums to the number of positions. -/
theorem sum_ones_weights :
    ∀ mask : List Nat, (∀ m ∈ mask, m = 1) → (mask.map fun (m : Nat) => (m : ℚ)).sum = mask.length := by
  intro mask
  induction mask with
  | nil => intro _; simp
  | cons m ms ih =>
    intro hm
    have hm1 : m = 1 := hm m (by simp)
    have hms : ∀ x ∈ ms, x = 1 := fun x hx => hm x (by simp [hx])
    simp [hm1, ih hms]
    ring

/-- Positions with a zero mask weight contribute nothing, so the numerator
ignores the targets there. -/
theorem loss_num_target_invariant (ce : Vec → Nat → ℚ) :
    ∀ (mask targets1 targets2 : List Nat) (rows : List Vec),
      targets1.length = mask.length → targets2.length = mask.length →
      rows.length = mask.length →
      (∀ i, mask.getD i 0 ≠ 0 → targets1.getD i 0 = targets2.getD i 0) →
      List.zipWith (· * ·) (List.zipWith ce rows targets1) (mask.map fun (m : Nat) => (m : ℚ)) =
        List.zipWith (· * ·) (List.zipWith ce rows targets2) (mask.map fun (m : Nat) => (m : ℚ)) := by
  intro mask
  induction mask with
  | nil => intro t1 t2 rows _ _ _ _; simp
  | cons m ms ih =>
    intro t1 t2 rows h1 h2 hr hag
    match rows, t1, t2 with
    | [], _, _ => simp at hr
    | _ :: _, [], _ => simp at h1
    | _ :: _, _ :: _, [] => simp at h2
    | r :: rs, a :: as, b :: bs =>
      have h1 : as.length = ms.length := by simpa using h1
      have h2 : bs.length = ms.length := by simpa using h2
      have hr : rs.length = ms.length := by simpa using hr
      have htail : ∀ i, ms.getD i 0 ≠ 0 → as.getD i 0 = bs.getD i 0 := by
        intro i hi
        have := hag (i + 1)
        simpa using this (by simpa using hi)
      simp only [List.map_cons, List.zipWith_cons_cons]
      rw [ih as bs rs h1 h2 hr htail]
      rcases Nat.eq_zero_or_pos m with hm | hm
      · simp [hm]
      · have hab : a = b := by
          have := hag 0
          simpa using this (by simpa using Nat.pos_iff_ne_zero.mp hm)
        rw [hab]

/-- C4: in unrolled mode the batch loss is the mask-weighted sum of per-token
cross-entropies divided by the sum of mask weights; with an all-ones mask it
is the plain mean per-token cross-entropy; and changing target tokens at
positions whose mask weight is zero leaves the loss unchanged. -/
theorem masked_loss_correct (ce : Vec → Nat → ℚ) (logitRows : List Vec)
    (targets targets2 mask : List Nat)
    (hrows : logitRows.length = mask.length) (htargets : targets.length = mask.length)
    (htargets2 : targets2.length = mask.length) :
    batchLoss ce logitRows targets mask = specMaskedLoss ce logitRows targets mask ∧
      ((∀ m ∈ mask, m = 1) →
        batchLoss ce logitRows targets mask =
          (tokenLosses ce logitRows targets).sum / (mask.length : ℚ)) ∧
      ((∀ i, mask.getD i 0 ≠ 0 → targets.getD i 0 = targets2.getD i 0) →
        batchLoss ce logitRows targets mask = batchLoss ce logitRows targets2 mask) := by
  refine ⟨?_, ?_, ?_⟩
  · unfold batchLoss specMaskedLoss tokenLosses lossWeights
    rw [loss_num_eq_range ce mask targets logitRows hrows htargets, loss_den_eq_range]
  · intro hones
    unfold batchLoss tokenLosses lossWeights
    rw [zipWith_mul_ones _ mask hones (by simpa [tokenLosses] using
        (List.length_zipWith ce logitRows targets).trans (by rw [hrows, htargets]; simp)),
      sum_ones_weights mask hones]
  · intro hag
    unfold batchLoss tokenLosses lossWeights
    rw [loss_num_target_invariant ce mask targets targets2 logitRows htargets htargets2
      hrows hag]

/-- Witness for `masked_loss_correct`: two logit rows, an all-ones mask and a
pair of target vectors that agree everywhere. -/
theorem masked_loss_correct_witness :
    (([[(1 : ℚ)], [2]] : List Vec).length = ([1, 1] : List Nat).length ∧
        ([0, 1] : List Nat).length = ([1, 1] : List Nat).length ∧
        ([0, 1] : List Nat).length = ([1, 1] : List Nat).length) ∧
      batchLoss (fun _ _ => 1) [[(1 : ℚ)], [2]] [0, 1] [1, 1] =
        specMaskedLoss (fun _ _ => 1) [[(1 : ℚ)], [2]] [0, 1] [1, 1] :=
  ⟨⟨rfl, rfl, rfl⟩,
    (masked_loss_correct (fun _ _ => 1) [[(1 : ℚ)], [2]] [0, 1] [0, 1] [1, 1]
      rfl rfl rfl).1⟩

/-! Embedding fusion: `build_model` lines 351-366.  Per batch row, the fused
image context concatenates the global and region embeddings; each sequence
context row concatenates a word embedding with a tiled copy of the global
image embedding — tiled across the padded sequence-length axis in unrolled
mode and across the batch axis in stepwise mode. -/

/-- Fused image context (line 352): row-wise `tf.concat` of the global and
region embeddings, one row per batch element. -/
def imageEmbeddingsWithAspect (imageEmb regionEmb : List Vec) : List Vec :=
  List.zipWith (· ++ ·) imageEmb regionEmb

/-- Unrolled-mode tiling (lines 362-364): the expanded global-embedding row of
one example replicated across the padded sequence-length axis. -/
def tileUnrolled (globalRow : Vec) (seqLen : Nat) : List Vec :=
  List.replicate seqLen globalRow

/-- Stepwise-mode tiling (lines 357-360): the single global-embedding row
replicated across the runtime batch axis. -/
def tileStepwise (globalRow : Vec) (batch : Nat) : List Vec :=
  List.replicate batch globalRow

/-- Sequence context of one example in unrolled mode (line 365): per timestep,
the word embedding concatenated with the tiled global row. -/
def seqContextUnrolled (wordRows : List Vec) (globalRow : Vec) : List Vec :=
  List.zipWith (· ++ ·) wordRows (tileUnrolled globalRow wordRows.length)

/-- Sequence context in stepwise mode (line 365): per batch row, the word
embedding concatenated with the tiled global row. -/
def seqContextStepwise (wordRows : List Vec) (globalRow : Vec) : List Vec :=
  List.zipWith (· ++ ·) wordRows (tileStepwise globalRow wordRows.length)

/-- Row lengths of a row-wise concatenation of two lists of length-`E` rows. -/
theorem zipWith_append_row_length (E : Nat) :
    ∀ xs ys : List Vec, (∀ x ∈ xs, x.length = E) → (∀ y ∈ ys, y.length = E) →
      ∀ r ∈ List.zipWith (· ++ ·) xs ys, r.length = 2 * E := by
  intro xs
  induction xs with
  | nil => intro ys _ _ r hr; simp at hr
  | cons x xs ih =>
    intro ys hx hy r hr
    match ys with
    | [] => simp at hr
    | y :: ys =>
      rcases (by simpa using hr : r = x ++ y ∨ r ∈ List.zipWith (· ++ ·) xs ys) with h | h
      · subst h
        simp [hx x (by simp), hy y (by simp), two_mul]
      · exact ih ys (fun a ha => hx a (by simp [ha])) (fun a ha => hy a (by simp [ha])) r h

/-- C6: the fused image context rows all have length exactly `2E`, every
sequence-context row has length exactly `2E` in both modes, and the tiled
global-embedding rows are replicas of the single global row — across the
sequence-length axis in unrolled mode and across the batch axis in stepwise
mode. -/
theorem fusion_shape_invariant (E : Nat) (imageEmb regionEmb wordRows : List Vec)
    (globalRow : Vec) (B T : Nat)
    (himg : ∀ v ∈ imageEmb, v.length = E) (hreg : ∀ v ∈ regionEmb, v.length = E)
    (hword : ∀ v ∈ wordRows, v.length = E) (hglob : globalRow.length = E) :
    (∀ r ∈ imageEmbeddingsWithAspect imageEmb regionEmb, r.length = 2 * E) ∧
      (∀ r ∈ seqContextUnrolled wordRows globalRow, r.length = 2 * E) ∧
      (∀ r ∈ seqContextStepwise wordRows globalRow, r.length = 2 * E) ∧
      (∀ r ∈ tileUnrolled globalRow T, r = globalRow) ∧
      (∀ r ∈ tileStepwise globalRow B, r = globalRow) := by
  have htile : ∀ n, ∀ r ∈ List.replicate n globalRow, r.length = E := fun n r hr => by
    rw [List.eq_of_mem_replicate hr]; exact hglob
  refine ⟨zipWith_append_row_length E imageEmb regionEmb himg hreg, ?_, ?_, ?_, ?_⟩
  · exact zipWith_append_row_length E wordRows _ hword (htile _)
  · exact zipWith_append_row_length E wordRows _ hword (htile _)
  · exact fun r hr => List.eq_of_mem_replicate hr
  · exact fun r hr => List.eq_of_mem_replicate hr

/-- Witness for `fusion_shape_invariant` at `E = 1` with a two-row batch and a
three-step sequence. -/
theorem fusion_shape_invariant_witness :
    ((∀ v ∈ [[(1 : ℚ)], [2]], List.length v = 1) ∧
        (∀ v ∈ [[(3 : ℚ)], [4]], List.length v = 1) ∧
        (∀ v ∈ [[(5 : ℚ)], [6], [7]], List.length v = 1) ∧
        ([(9 : ℚ)] : Vec).length = 1) ∧
      (∀ r ∈ imageEmbeddingsWithAspect [[(1 : ℚ)], [2]] [[(3 : ℚ)], [4]],
        r.length = 2 * 1) := by
  refine ⟨⟨?_, ?_, ?_, rfl⟩, ?_⟩
  · intro v hv
    simp only [List.mem_cons, List.mem_singleton, List.not_mem_nil, or_false] at hv
    rcases hv with h | h <;> simp [h]
  · intro v hv
    simp only [List.mem_cons, List.mem_singleton, List.not_mem_nil, or_false] at hv
    rcases hv with h | h <;> simp [h]
  · intro v hv
    simp only [List.mem_cons, List.mem_singleton, List.not_mem_nil, or_false] at hv
    rcases hv with h | h | h <;> simp [h]
  · refine (fusion_shape_invariant 1 [[(1 : ℚ)], [2]] [[(3 : ℚ)], [4]] [[(5 : ℚ)], [6], [7]]
      [(9 : ℚ)] 2 3 ?_ ?_ ?_ rfl).1
    · intro v hv
      simp only [List.mem_cons, List.mem_singleton, List.not_mem_nil, or_false] at hv
      rcases hv with h | h <;> simp [h]
    · intro v hv
      simp only [List.mem_cons, List.mem_singleton, List.not_mem_nil, or_false] at hv
      rcases hv with h | h <;> simp [h]
    · intro v hv
      simp only [List.mem_cons, List.mem_singleton, List.not_mem_nil, or_false] at hv
      rcases hv with h | h | h <;> simp [h]

/-! Inference drivers: `ricga/run_inference.py` lines 80-84 and
`ricga/create_results.py` lines 68-79.  Both look up each token id of a beam
hypothesis through the vocabulary, after removing the first and last tokens
with the slice `caption.sentence[1:-1]`, and join the words with single
spaces; `create_results.py` additionally emits one record per index below
`min(len(img_objs), eval_num)`. -/

/-- Python slice `l[1:-1]`: drop the first element, then drop the last. -/
def sliceInterior {α : Type} (l : List α) : List α := (l.drop 1).dropLast

/-- Caption string printed by `run_inference.main` (lines 82-83):
`" ".join(vocab.id_to_word(w) for w in caption.sentence[1:-1])`. -/
def runInferenceCaption (idToWord : Nat → String) (sentence : List Nat) : String :=
  String.intercalate " " ((sliceInterior sentence).map idToWord)

/-- Caption string written by `create_results.main` (lines 73-74): the same
trim-and-join expression. -/
def createResultsCaption (idToWord : Nat → String) (sentence : List Nat) : String :=
  String.intercalate " " ((sliceInterior sentence).map idToWord)

/-- Record loop of `create_results.main` (lines 68-75): one caption record is
appended per index of `range(min(len(img_objs), eval_num))`. -/
def createResultsRecords {α : Type} (numImages evalNum : Nat) (record : Nat → α) : List α :=
  (List.range (min numImages evalNum)).map record

/-- C10: both drivers emit, for a hypothesis of `n ≥ 2` tokens, the
space-joined vocabulary lookup of exactly the tokens at positions `2 … n-1`
(the begin and end tokens are dropped), and `create_results.py` writes exactly
`min(number of annotated images, eval_num)` caption records. -/
theorem caption_output_correct {α : Type} (idToWord : Nat → String) (sentence : List Nat)
    (n : Nat) (hn : sentence.length = n) (_h2 : 2 ≤ n)
    (numImages evalNum : Nat) (record : Nat → α) :
    runInferenceCaption idToWord sentence =
        String.intercalate " " (((sentence.drop 1).take (n - 2)).map idToWord) ∧
      createResultsCaption idToWord sentence =
        String.intercalate " " (((sentence.drop 1).take (n - 2)).map idToWord) ∧
      (createResultsRecords numImages evalNum record).length = min numImages evalNum := by
  have hslice : sliceInterior sentence = (sentence.drop 1).take (n - 2) := by
    rw [sliceInterior, List.dropLast_eq_take, List.length_drop, hn]
    rfl
  exact ⟨by rw [runInferenceCaption, hslice], by rw [createResultsCaption, hslice],
    by simp [createResultsRecords]⟩

/-- Witness for `caption_output_correct`: the four-token hypothesis
`[0, 7, 8, 1]` keeps exactly its two interior tokens, and a run over five
annotated images with `eval_num = 3` writes three records. -/
theorem caption_output_correct_witness :
    (([0, 7, 8, 1] : List Nat).length = 4 ∧ 2 ≤ 4) ∧
      (runInferenceCaption (fun i => toString i) [0, 7, 8, 1] =
          String.intercalate " "
            ((([0, 7, 8, 1] : List Nat).drop 1 |>.take (4 - 2)).map fun i => toString i) ∧
        createResultsCaption (fun i => toString i) [0, 7, 8, 1] =
          String.intercalate " "
            ((([0, 7, 8, 1] : List Nat).drop 1 |>.take (4 - 2)).map fun i => toString i) ∧
        (createResultsRecords 5 3 (fun i => i)).length = min 5 3) :=
  ⟨⟨rfl, by decide⟩,
    caption_output_correct (fun i => toString i) [0, 7, 8, 1] 4 rfl (by decide) 5 3
      (fun i => i)⟩

end RicgaSpec
